import Mathlib

/-!
Shallow embedding of the raster-vector conversion and extraction workflow
described by the specification of this repository (masking/cropping, point
and zonal extraction, rasterization, vectorization).  The repository's
notebooks call these operations in external geospatial libraries; the
operations themselves are therefore modelled from the specification's
component design, using exact rational arithmetic for world coordinates
and integers for cell values.
-/

namespace GeoCompy

/-- Modelled from the spec: an affine georeferencing transform of the kind
built by rasterio.transform.from_origin, mapping array (row, col) indices
to world coordinates.  The top-left corner of cell (0,0) is at
(west, north); x grows eastwards by xsize per column and y decreases by
ysize per row. -/
structure Affine where
  west : ℚ
  north : ℚ
  xsize : ℚ
  ysize : ℚ
deriving DecidableEq

/-- World x coordinate of the center of column c. -/
def Affine.cellCenterX (t : Affine) (c : Nat) : ℚ :=
  t.west + ((c : ℚ) + 1/2) * t.xsize

/-- World y coordinate of the center of row r. -/
def Affine.cellCenterY (t : Affine) (r : Nat) : ℚ :=
  t.north - ((r : ℚ) + 1/2) * t.ysize

/-- Column index of the cell containing world x coordinate, via the
inverse affine transform (floor of the fractional grid index). -/
def Affine.colOf (t : Affine) (x : ℚ) : ℤ :=
  ⌊(x - t.west) / t.xsize⌋

/-- Row index of the cell containing world y coordinate, via the
inverse affine transform (floor of the fractional grid index). -/
def Affine.rowOf (t : Affine) (y : ℚ) : ℤ :=
  ⌊(t.north - y) / t.ysize⌋

/-- Modelled from the spec: a Grid is a 2-D array of numeric cell values
(stored row-major), with a declared no-data sentinel value, an affine
transform and a CRS.  The cell values are integers, matching the integer
rasters used throughout the source material. -/
structure Grid where
  rows : Nat
  cols : Nat
  transform : Affine
  crs : Nat
  nodata : ℤ
  data : List ℤ
deriving DecidableEq

/-- Value of the grid at cell (r, c) (row-major lookup). -/
def Grid.get (g : Grid) (r c : Nat) : ℤ :=
  g.data.getD (r * g.cols + c) g.nodata

/-- Row-major data list built from a function of (row, col). -/
def mkData (rows cols : Nat) (f : Nat → Nat → ℤ) : List ℤ :=
  (List.range (rows * cols)).map fun i => f (i / cols) (i % cols)

/-- Grid built from a function of (row, col). -/
def Grid.ofFun (rows cols : Nat) (t : Affine) (crs : Nat) (nd : ℤ)
    (f : Nat → Nat → ℤ) : Grid :=
  ⟨rows, cols, t, crs, nd, mkData rows cols f⟩

/-- Modelled from the spec: a geometry shape is a Point or a Polygon
(polygons are modelled as axis-aligned rectangles, the shape the source
material uses: bounding-box envelopes and extent polygons). -/
inductive GShape where
  | point (x y : ℚ)
  | rect (xmin ymin xmax ymax : ℚ)
deriving DecidableEq

/-- Modelled from the spec: a geometry is a shape in a declared
coordinate reference system. -/
structure Geometry where
  crs : Nat
  shape : GShape
deriving DecidableEq

/-- Whether the world point (x, y) lies in the shape. -/
def GShape.containsPt : GShape → ℚ → ℚ → Bool
  | .point px py, x, y => x == px && y == py
  | .rect xmin ymin xmax ymax, x, y =>
      decide (xmin ≤ x) && decide (x ≤ xmax) &&
      decide (ymin ≤ y) && decide (y ≤ ymax)

/-- Modelled from the spec: whether grid cell (r, c) is considered to
intersect the shape.  A point intersects exactly the cell containing its
coordinate.  For a polygon, the all-touched flag selects between the
any-overlap policy (true) and the centroid-inside policy (false). -/
def cellTouched (t : Affine) (r c : Nat) (sh : GShape) (allTouched : Bool) :
    Bool :=
  match sh with
  | .point x y => t.rowOf y == (r : ℤ) && t.colOf x == (c : ℤ)
  | .rect xmin ymin xmax ymax =>
      if allTouched then
        decide (xmin ≤ t.west + ((c : ℚ) + 1) * t.xsize) &&
        decide (t.west + (c : ℚ) * t.xsize ≤ xmax) &&
        decide (ymin ≤ t.north - (r : ℚ) * t.ysize) &&
        decide (t.north - ((r : ℚ) + 1) * t.ysize ≤ ymax)
      else
        (GShape.rect xmin ymin xmax ymax).containsPt
          (t.cellCenterX c) (t.cellCenterY r)

/-- Modelled from the spec: error kinds of the masking operation. -/
inductive MaskError where
  | invalidCRS
  | emptyGeometry
deriving DecidableEq

/-- Per-cell value rule shared by mask-only and mask+crop: a cell keeps
its value when it intersects some input shape and becomes no-data
otherwise. -/
def maskRule (g : Grid) (shapes : List GShape) (allTouched : Bool)
    (r c : Nat) : ℤ :=
  if shapes.any (fun sh => cellTouched g.transform r c sh allTouched) then
    g.get r c
  else
    g.nodata

/-- Modelled from the spec: mask-only masking (crop=False).  The output
grid has the same shape and transform as the input; every cell not
intersecting any input shape is set to the no-data sentinel. -/
def maskOnly (g : Grid) (shapes : List GShape) (allTouched : Bool) : Grid :=
  Grid.ofFun g.rows g.cols g.transform g.crs g.nodata
    (maskRule g shapes allTouched)

/-- Extent (xmin, ymin, xmax, ymax) of one shape. -/
def GShape.extent : GShape → ℚ × ℚ × ℚ × ℚ
  | .point x y => (x, y, x, y)
  | .rect xmin ymin xmax ymax => (xmin, ymin, xmax, ymax)

/-- Extent of the union of a collection of shapes (none when empty). -/
def shapesExtent : List GShape → Option (ℚ × ℚ × ℚ × ℚ)
  | [] => none
  | sh :: rest =>
      let e := sh.extent
      match shapesExtent rest with
      | none => some e
      | some (a, b, c, d) =>
          some (min e.1 a, min e.2.1 b, max e.2.2.1 c, max e.2.2.2 d)

/-- A window into a grid, in grid-index space. -/
structure Window where
  rowOff : Nat
  colOff : Nat
  rows : Nat
  cols : Nat
deriving DecidableEq

/-- Modelled from the spec: the minimal bounding window (in grid-index
space, clamped to the grid) covering the union of the input shapes'
extents. -/
def cropWindow (g : Grid) (shapes : List GShape) : Window :=
  match shapesExtent shapes with
  | none => ⟨0, 0, 0, 0⟩
  | some (xmin, ymin, xmax, ymax) =>
      let r0 : ℤ := max (g.transform.rowOf ymax) 0
      let r1 : ℤ := min (g.transform.rowOf ymin) ((g.rows : ℤ) - 1)
      let c0 : ℤ := max (g.transform.colOf xmin) 0
      let c1 : ℤ := min (g.transform.colOf xmax) ((g.cols : ℤ) - 1)
      ⟨r0.toNat, c0.toNat, (r1 + 1 - r0).toNat, (c1 + 1 - c0).toNat⟩

/-- The transform of a window of a grid: the same scale, with the origin
moved to the window's top-left corner. -/
def windowTransform (t : Affine) (w : Window) : Affine :=
  ⟨t.west + (w.colOff : ℚ) * t.xsize, t.north - (w.rowOff : ℚ) * t.ysize,
   t.xsize, t.ysize⟩

/-- Modelled from the spec: mask+crop masking (crop=True).  The output's
shape and transform are tightened to the minimal bounding window covering
the union of the input shapes' extents; within the window the same
per-cell masking rule applies. -/
def maskCrop (g : Grid) (shapes : List GShape) (allTouched : Bool) : Grid :=
  let w := cropWindow g shapes
  let t2 := windowTransform g.transform w
  Grid.ofFun w.rows w.cols t2 g.crs g.nodata fun r c =>
    if shapes.any (fun sh => cellTouched t2 r c sh allTouched) then
      g.get (r + w.rowOff) (c + w.colOff)
    else
      g.nodata

/-- Modelled from the spec: the masking/cropping operation.  It fails
with InvalidCRS when some input geometry's CRS differs from the grid's,
fails with EmptyGeometry when the selector collection is empty, and
otherwise returns the mask-only or mask+crop grid. -/
def mask (g : Grid) (geoms : List Geometry) (crop allTouched : Bool) :
    Except MaskError Grid :=
  if geoms.any fun ge => ge.crs != g.crs then
    .error .invalidCRS
  else if geoms.isEmpty then
    .error .emptyGeometry
  else if crop then
    .ok (maskCrop g (geoms.map Geometry.shape) allTouched)
  else
    .ok (maskOnly g (geoms.map Geometry.shape) allTouched)

/-- Modelled from the spec: sample the grid at world point (x, y) with the
nearest sampling policy: map the point through the inverse affine transform
to a fractional grid index and take the containing cell; a point falling
outside the grid extent yields the no-data value instead of an error. -/
def samplePoint (g : Grid) (x y : ℚ) : ℤ :=
  if 0 ≤ g.transform.rowOf y ∧ g.transform.rowOf y < (g.rows : ℤ) ∧
      0 ≤ g.transform.colOf x ∧ g.transform.colOf x < (g.cols : ℤ) then
    g.get (g.transform.rowOf y).toNat (g.transform.colOf x).toNat
  else
    g.nodata

/-- Modelled from the spec: point extraction (rasterstats.point_query with
nearest interpolation): one scalar value per input point, positionally
aligned with the input order. -/
def pointQuery (pts : List (ℚ × ℚ)) (g : Grid) : List ℤ :=
  pts.map fun p => samplePoint g p.1 p.2

/-- All cells of a rows-by-cols grid, in row-major order. -/
def cellsList (rows cols : Nat) : List (Nat × Nat) :=
  (List.range (rows * cols)).map fun i => (i / cols, i % cols)

/-- Modelled from the spec: the grid cells overlapping a polygon under the
chosen inclusion policy, in row-major order. -/
def zoneCells (g : Grid) (sh : GShape) (allTouched : Bool) :
    List (Nat × Nat) :=
  (cellsList g.rows g.cols).filter fun p =>
    cellTouched g.transform p.1 p.2 sh allTouched

/-- Values of the grid cells overlapping the polygon. -/
def zoneValues (g : Grid) (sh : GShape) (allTouched : Bool) : List ℤ :=
  (zoneCells g sh allTouched).map fun p => g.get p.1 p.2

/-- Valid overlapping-cell values: the no-data sentinel is excluded. -/
def zoneValid (g : Grid) (sh : GShape) (allTouched : Bool) : List ℤ :=
  (zoneValues g sh allTouched).filter fun v => v != g.nodata

/-- Insertion into a sorted list of values. -/
def insertSorted (v : ℤ) : List ℤ → List ℤ
  | [] => [v]
  | w :: ws => if v ≤ w then v :: w :: ws else w :: insertSorted v ws

/-- Insertion sort of a list of values. -/
def sortVals (l : List ℤ) : List ℤ :=
  l.foldr insertSorted []

/-- Arithmetic mean of a list of values (none when empty). -/
def listMean (l : List ℤ) : Option ℚ :=
  if l.isEmpty then none
  else some ((l.map fun v => (v : ℚ)).sum / (l.length : ℚ))

/-- Median of a list of values: middle element of the sorted list, or the
mean of the two middle elements for even length (none when empty). -/
def listMedian (l : List ℤ) : Option ℚ :=
  let s := sortVals l
  let n := s.length
  if n = 0 then none
  else if n % 2 = 1 then some ((s.getD (n / 2) 0 : ℚ))
  else some (((s.getD (n / 2 - 1) 0 + s.getD (n / 2) 0 : ℤ) : ℚ) / 2)

/-- Number of occurrences of a value in a list. -/
def countOcc (l : List ℤ) (v : ℤ) : Nat :=
  (l.filter fun w => w == v).length

/-- Majority: the most frequently occurring value (none when empty;
earliest value wins ties). -/
def listMajority (l : List ℤ) : Option ℤ :=
  l.foldl
    (fun acc v =>
      match acc with
      | none => some v
      | some w => if countOcc l w < countOcc l v then some v else some w)
    none

/-- Modelled from the spec: a zonal result is a record of summary
statistics for one polygon. -/
structure ZonalResult where
  count : Nat
  nodataCount : Nat
  minVal : Option ℤ
  maxVal : Option ℤ
  meanVal : Option ℚ
  medianVal : Option ℚ
  majorityVal : Option ℤ
deriving DecidableEq

/-- Modelled from the spec: zonal statistics for one polygon
(rasterstats.zonal_stats): the statistics are computed over the valid
(non-no-data) cells overlapping the polygon; count is the number of valid
overlapping cells and nodataCount the number of excluded no-data
overlapping cells. -/
def zonalStats (g : Grid) (sh : GShape) (allTouched : Bool) : ZonalResult :=
  let valid := zoneValid g sh allTouched
  { count := valid.length
    nodataCount :=
      ((zoneValues g sh allTouched).filter fun v => v == g.nodata).length
    minVal := valid.min?
    maxVal := valid.max?
    meanVal := listMean valid
    medianVal := listMedian valid
    majorityVal := listMajority valid }

/-- Modelled from the spec: the merge policy of rasterization. -/
inductive MergeAlg where
  | replaceLast
  | add
deriving DecidableEq

/-- Merge one burned value into a cell under the merge policy. -/
def burnCell (alg : MergeAlg) (old v : ℤ) : ℤ :=
  match alg with
  | .replaceLast => v
  | .add => old + v

/-- Modelled from the spec: the value of cell (r, c) after burning the
(shape, value) pairs in input order, starting from the fill value. -/
def rasterizeCell (shapes : List (GShape × ℤ)) (t : Affine)
    (allTouched : Bool) (alg : MergeAlg) (fill : ℤ) (r c : Nat) : ℤ :=
  shapes.foldl
    (fun acc sv =>
      if cellTouched t r c sv.1 allTouched then burnCell alg acc sv.2
      else acc)
    fill

/-- Modelled from the spec: rasterization (burn-in,
rasterio.features.rasterize) of an ordered sequence of (shape, value)
pairs onto a template grid described by its shape and transform. -/
def rasterize (shapes : List (GShape × ℤ)) (rows cols : Nat) (t : Affine)
    (crs : Nat) (nd fill : ℤ) (allTouched : Bool) (alg : MergeAlg) : Grid :=
  Grid.ofFun rows cols t crs nd (rasterizeCell shapes t allTouched alg fill)

/-- The values of the shapes touching cell (r, c), in input order. -/
def touchingValues (shapes : List (GShape × ℤ)) (t : Affine)
    (allTouched : Bool) (r c : Nat) : List ℤ :=
  (shapes.filter fun sv => cellTouched t r c sv.1 allTouched).map Prod.snd

/-- The transform of a rasterization template built from a layer bounding
box with origin at the top-left corner (xmin, ymax) and square resolution
res (rasterio.transform.from_origin). -/
def templateTransform (xmin ymax res : ℚ) : Affine :=
  ⟨xmin, ymax, res, res⟩

/-- Row count of the template: the y extent divided by the resolution,
rounded up (math.ceil). -/
def templateRows (ymin ymax res : ℚ) : ℤ :=
  ⌈(ymax - ymin) / res⌉

/-- Column count of the template: the x extent divided by the resolution,
rounded up (math.ceil). -/
def templateCols (xmin xmax res : ℚ) : ℤ :=
  ⌈(xmax - xmin) / res⌉

/-- Grid value at a cell given as a pair. -/
def Grid.getP (g : Grid) (p : Nat × Nat) : ℤ :=
  g.get p.1 p.2

/-- Whether a cell index pair is within the grid bounds. -/
def inBounds (g : Grid) (p : Nat × Nat) : Bool :=
  decide (p.1 < g.rows) && decide (p.2 < g.cols)

/-- Whether two cells are 4-neighbors within the grid holding the same
value: the dissolving adjacency of vectorization. -/
def adjB (g : Grid) (p q : Nat × Nat) : Bool :=
  inBounds g p && inBounds g q && g.getP p == g.getP q &&
    ((p.1 == q.1 && (p.2 + 1 == q.2 || q.2 + 1 == p.2)) ||
     (p.2 == q.2 && (p.1 + 1 == q.1 || q.1 + 1 == p.1)))

/-- Reachability by a same-value 4-connected path of length at most n. -/
def reachN (g : Grid) : Nat → Nat × Nat → Nat × Nat → Bool
  | 0, p, q => p == q
  | n + 1, p, q =>
      reachN g n p q ||
        (cellsList g.rows g.cols).any fun m => reachN g n p m && adjB g m q

/-- Reachability by a same-value 4-connected path (the grid's cell count
bounds any shortest path length). -/
def reach (g : Grid) (p q : Nat × Nat) : Bool :=
  reachN g (g.rows * g.cols) p q

/-- The connected component of a cell: all cells reachable from it, in
row-major order. -/
def component (g : Grid) (p : Nat × Nat) : List (Nat × Nat) :=
  (cellsList g.rows g.cols).filter fun q => reach g p q

/-- Modelled from the spec: vectorization (rasterio.features.shapes): a
finite sequence of (polygon, value) pairs in which contiguous runs of
cells sharing the identical value are dissolved into a single polygon.  A
polygon is represented by the row-major list of its cells; each dissolved
region is emitted once, at its first cell in row-major order. -/
def vectorize (g : Grid) : List (List (Nat × Nat) × ℤ) :=
  (cellsList g.rows g.cols).filterMap fun p =>
    if (component g p).head? = some p then some (component g p, g.getP p)
    else none

/-- Centroid of a region made of equal-area cells: the mean of the cell
centers (for the single-cell regions of the round trip this is the cell
center). -/
def regionCentroid (cells : List (Nat × Nat)) (t : Affine) : ℚ × ℚ :=
  ((cells.map fun p => t.cellCenterX p.2).sum / (cells.length : ℚ),
   (cells.map fun p => t.cellCenterY p.1).sum / (cells.length : ℚ))

/-- The unique per-cell identifier grid of a grid: same shape and
transform, cell (r, c) holds the consecutive id r * cols + c
(np.arange reshaped to the grid shape). -/
def idGrid (g : Grid) : Grid :=
  Grid.ofFun g.rows g.cols g.transform g.crs (-1) fun r c =>
    ((r * g.cols + c : Nat) : ℤ)

/-- The raster-to-points round trip of the spec: rasterize a unique
per-cell id grid, vectorize it, take each polygon's centroid, and extract
the original grid's values at those points. -/
def roundTrip (g : Grid) : List ℤ :=
  pointQuery
    ((vectorize (idGrid g)).map fun pr => regionCentroid pr.1 g.transform) g

/-- Modelled from the spec: a world point lies outside the grid extent
when it is west of, east of, north of or south of the rectangle covered
by the grid's cells. -/
def outsideExtent (g : Grid) (x y : ℚ) : Prop :=
  x < g.transform.west ∨
  g.transform.west + (g.cols : ℚ) * g.transform.xsize ≤ x ∨
  g.transform.north < y ∨
  y ≤ g.transform.north - (g.rows : ℚ) * g.transform.ysize

/-- A small concrete transform used to exercise the operations: origin
(0, 4), square cells of size 2. -/
def exTransform : Affine :=
  ⟨0, 4, 2, 2⟩

/-- A small concrete 2-by-2 grid used to exercise the operations. -/
def exGrid : Grid :=
  ⟨2, 2, exTransform, 1, -9, [10, 11, 12, 13]⟩

/-- A concrete point geometry inside cell (0, 0) of the example grid, in
the grid's CRS. -/
def exGeom : Geometry :=
  ⟨1, .point 1 3⟩

/-- A small concrete 2-by-2 grid whose cells all hold the same value. -/
def exUniform : Grid :=
  ⟨2, 2, exTransform, 1, -9, [5, 5, 5, 5]⟩

/-! Basic lemmas about the embedding. -/

theorem idx_div (r c cols : Nat) (hc : c < cols) :
    (r * cols + c) / cols = r := by
  have h0 : 0 < cols := lt_of_le_of_lt (Nat.zero_le c) hc
  rw [mul_comm, Nat.mul_add_div h0, Nat.div_eq_of_lt hc, Nat.add_zero]

theorem idx_mod (r c cols : Nat) (hc : c < cols) :
    (r * cols + c) % cols = c := by
  rw [mul_comm, Nat.mul_add_mod, Nat.mod_eq_of_lt hc]

theorem idx_lt (r c rows cols : Nat) (hr : r < rows) (hc : c < cols) :
    r * cols + c < rows * cols := by
  have h1 : (r + 1) * cols = r * cols + cols := by ring
  have h2 : (r + 1) * cols ≤ rows * cols := Nat.mul_le_mul_right cols hr
  omega

theorem mkData_length (rows cols : Nat) (f : Nat → Nat → ℤ) :
    (mkData rows cols f).length = rows * cols := by
  simp [mkData]

theorem Grid.ofFun_get (rows cols : Nat) (t : Affine) (crs : Nat) (nd : ℤ)
    (f : Nat → Nat → ℤ) (r c : Nat) (hr : r < rows) (hc : c < cols) :
    (Grid.ofFun rows cols t crs nd f).get r c = f r c := by
  have hidx : r * cols + c < rows * cols := idx_lt r c rows cols hr hc
  show (mkData rows cols f).getD (r * cols + c) nd = f r c
  rw [List.getD_eq_getElem _ _ (by simpa [mkData_length] using hidx)]
  simp only [mkData, List.getElem_map, List.getElem_range]
  rw [idx_div r c cols hc, idx_mod r c cols hc]

theorem cellsList_length (rows cols : Nat) :
    (cellsList rows cols).length = rows * cols := by
  simp [cellsList]

theorem mem_cellsList (rows cols : Nat) (p : Nat × Nat) :
    p ∈ cellsList rows cols ↔ p.1 < rows ∧ p.2 < cols := by
  simp only [cellsList, List.mem_map, List.mem_range]
  constructor
  · rintro ⟨i, hi, rfl⟩
    have hcols : 0 < cols := by
      rcases Nat.eq_zero_or_pos cols with h0 | h0
      · subst h0; omega
      · exact h0
    refine ⟨?_, Nat.mod_lt _ hcols⟩
    rw [Nat.div_lt_iff_lt_mul hcols]
    omega
  · rintro ⟨h1, h2⟩
    exact ⟨p.1 * cols + p.2, idx_lt _ _ _ _ h1 h2,
      by rw [idx_div _ _ _ h2, idx_mod _ _ _ h2]⟩

theorem length_filter_not_add (p : ℤ → Bool) (l : List ℤ) :
    (l.filter fun v => !(p v)).length + (l.filter p).length = l.length := by
  induction l with
  | nil => rfl
  | cons a l ih =>
    by_cases h : p a <;> simp [List.filter_cons, h] <;> omega

/-! Rasterization lemmas. -/

theorem rasterizeCell_cons (sv : GShape × ℤ) (rest : List (GShape × ℤ))
    (t : Affine) (at_ : Bool) (alg : MergeAlg) (fill : ℤ) (r c : Nat) :
    rasterizeCell (sv :: rest) t at_ alg fill r c =
      rasterizeCell rest t at_ alg
        (if cellTouched t r c sv.1 at_ then burnCell alg fill sv.2 else fill)
        r c := rfl

theorem touchingValues_cons (sv : GShape × ℤ) (rest : List (GShape × ℤ))
    (t : Affine) (at_ : Bool) (r c : Nat) :
    touchingValues (sv :: rest) t at_ r c =
      if cellTouched t r c sv.1 at_ then
        sv.2 :: touchingValues rest t at_ r c
      else touchingValues rest t at_ r c := by
  simp only [touchingValues, List.filter_cons]
  by_cases h : cellTouched t r c sv.1 at_ <;> simp [h]

theorem rasterizeCell_add_eq_sum (shapes : List (GShape × ℤ)) (t : Affine)
    (at_ : Bool) (fill : ℤ) (r c : Nat) :
    rasterizeCell shapes t at_ .add fill r c
      = fill + (touchingValues shapes t at_ r c).sum := by
  induction shapes generalizing fill with
  | nil => simp [rasterizeCell, touchingValues]
  | cons sv rest ih =>
    rw [rasterizeCell_cons, touchingValues_cons]
    by_cases h : cellTouched t r c sv.1 at_
    · simp only [h, if_true, List.sum_cons, ih, burnCell]
      ring
    · simp [h, ih]

theorem rasterizeCell_replaceLast_eq_last (shapes : List (GShape × ℤ))
    (t : Affine) (at_ : Bool) (fill : ℤ) (r c : Nat) :
    rasterizeCell shapes t at_ .replaceLast fill r c
      = (touchingValues shapes t at_ r c).getLastD fill := by
  induction shapes generalizing fill with
  | nil => simp [rasterizeCell, touchingValues]
  | cons sv rest ih =>
    rw [rasterizeCell_cons, touchingValues_cons]
    by_cases h : cellTouched t r c sv.1 at_
    · simp only [h, if_true, ih, burnCell, List.getLastD_cons]
    · simp [h, ih]

theorem cellsList_nodup (rows cols : Nat) : (cellsList rows cols).Nodup := by
  apply List.Nodup.map_on ?_ (List.nodup_range _)
  intro i hi j hj hEq
  have e1 := Nat.div_add_mod i cols
  have e2 := Nat.div_add_mod j cols
  rw [Prod.ext_iff] at hEq
  obtain ⟨hEq1, hEq2⟩ := hEq
  simp only at hEq1 hEq2
  rw [hEq1, hEq2] at e1
  omega

theorem filter_eq_singleton_of_nodup {α : Type} (l : List α) (p : α → Bool)
    (a : α) (hnd : l.Nodup) (ha : a ∈ l)
    (hp : ∀ x ∈ l, (p x = true ↔ x = a)) : l.filter p = [a] := by
  induction l with
  | nil => cases ha
  | cons b rest ih =>
    rw [List.nodup_cons] at hnd
    rcases List.mem_cons.1 ha with rfl | hmem
    · have hpb : p a = true := (hp a (List.mem_cons_self _ _)).2 rfl
      rw [List.filter_cons_of_pos hpb]
      have : rest.filter p = [] := by
        rw [List.filter_eq_nil_iff]
        intro x hx
        intro hpx
        have := (hp x (List.mem_cons_of_mem _ hx)).1 hpx
        subst this
        exact hnd.1 hx
      rw [this]
    · have hba : b ≠ a := by
        rintro rfl
        exact hnd.1 hmem
      have hpb : p b = false := by
        rcases Bool.eq_false_or_eq_true (p b) with h | h
        · exact absurd ((hp b (List.mem_cons_self _ _)).1 h) hba
        · exact h
      rw [List.filter_cons_of_neg (by simp [hpb])]
      exact ih hnd.2 hmem fun x hx => hp x (List.mem_cons_of_mem _ hx)

/-! Claim theorems. -/

/-- C1: under the add merge policy rasterization sums the values of all
geometries touching a cell on top of the fill value, and under the
replace-last policy the last touching geometry in input order wins (the
fill value when none touches); in particular two coincident points with
values 3 and 4 burned into the same target cell of a fixed template yield
7 under add and 4 under replace-last. -/
theorem rasterize_merge_policies :
    (∀ (shapes : List (GShape × ℤ)) (t : Affine) (at_ : Bool) (fill : ℤ)
        (r c : Nat),
      rasterizeCell shapes t at_ .add fill r c
        = fill + (touchingValues shapes t at_ r c).sum) ∧
    (∀ (shapes : List (GShape × ℤ)) (t : Affine) (at_ : Bool) (fill : ℤ)
        (r c : Nat),
      rasterizeCell shapes t at_ .replaceLast fill r c
        = (touchingValues shapes t at_ r c).getLastD fill) ∧
    (rasterize [(.point 1 3, 3), (.point 1 3, 4)] 2 2 ⟨0, 4, 2, 2⟩ 0 (-9) 0
        false .add).get 0 0 = 7 ∧
    (rasterize [(.point 1 3, 3), (.point 1 3, 4)] 2 2 ⟨0, 4, 2, 2⟩ 0 (-9) 0
        false .replaceLast).get 0 0 = 4 := by
  refine ⟨rasterizeCell_add_eq_sum, rasterizeCell_replaceLast_eq_last,
    ?_, ?_⟩ <;>
  · rw [rasterize, Grid.ofFun_get _ _ _ _ _ _ _ _ (by norm_num) (by norm_num)]
    norm_num [rasterizeCell, touchingValues, cellTouched, Affine.rowOf,
      Affine.colOf, burnCell, Int.floor_eq_iff]

/-- C2: point extraction returns exactly one value per input point,
positionally aligned with the input order, and a point outside the grid
extent yields the no-data value instead of an error. -/
theorem point_query_aligned (g : Grid) (pts : List (ℚ × ℚ))
    (hx : 0 < g.transform.xsize) (hy : 0 < g.transform.ysize) :
    (pointQuery pts g).length = pts.length ∧
    (∀ i, i < pts.length →
      (pointQuery pts g).getD i g.nodata =
        samplePoint g (pts.getD i (0, 0)).1 (pts.getD i (0, 0)).2) ∧
    (∀ x y, outsideExtent g x y → samplePoint g x y = g.nodata) := by
  refine ⟨by simp [pointQuery], ?_, ?_⟩
  · intro i hi
    have hi2 : i < (pointQuery pts g).length := by simp [pointQuery, hi]
    rw [List.getD_eq_getElem _ _ hi2, List.getD_eq_getElem _ _ hi]
    simp [pointQuery]
  · intro x y hout
    rw [samplePoint, if_neg]
    rintro ⟨h1, h2, h3, h4⟩
    rcases hout with h | h | h | h
    · have hq : (x - g.transform.west) / g.transform.xsize < 0 :=
        div_neg_of_neg_of_pos (by linarith) hx
      have : g.transform.colOf x < 0 := Int.floor_lt.2 (by exact_mod_cast hq)
      omega
    · have hq : ((g.cols : ℚ)) ≤ (x - g.transform.west) / g.transform.xsize := by
        rw [le_div_iff₀ hx]
        linarith
      have : (g.cols : ℤ) ≤ g.transform.colOf x :=
        Int.le_floor.2 (by push_cast; linarith [hq])
      omega
    · have hq : (g.transform.north - y) / g.transform.ysize < 0 :=
        div_neg_of_neg_of_pos (by linarith) hy
      have : g.transform.rowOf y < 0 := Int.floor_lt.2 (by exact_mod_cast hq)
      omega
    · have hq : ((g.rows : ℚ)) ≤ (g.transform.north - y) / g.transform.ysize := by
        rw [le_div_iff₀ hy]
        linarith
      have : (g.rows : ℤ) ≤ g.transform.rowOf y :=
        Int.le_floor.2 (by push_cast; linarith [hq])
      omega

/-- C2 witness: the theorem applied to the concrete example grid and two
concrete points, the second of which lies outside the grid extent. -/
theorem point_query_aligned_witness :
    ((0 : ℚ) < exGrid.transform.xsize ∧ (0 : ℚ) < exGrid.transform.ysize) ∧
    ((pointQuery [(1, 3), (100, 0)] exGrid).length
        = ([(1, 3), (100, 0)] : List (ℚ × ℚ)).length ∧
      (∀ i, i < ([(1, 3), (100, 0)] : List (ℚ × ℚ)).length →
        (pointQuery [(1, 3), (100, 0)] exGrid).getD i exGrid.nodata =
          samplePoint exGrid
            (([(1, 3), (100, 0)] : List (ℚ × ℚ)).getD i (0, 0)).1
            (([(1, 3), (100, 0)] : List (ℚ × ℚ)).getD i (0, 0)).2) ∧
      (∀ x y, outsideExtent exGrid x y →
        samplePoint exGrid x y = exGrid.nodata)) :=
  ⟨⟨by norm_num [exGrid, exTransform], by norm_num [exGrid, exTransform]⟩,
    point_query_aligned exGrid [(1, 3), (100, 0)]
      (by norm_num [exGrid, exTransform]) (by norm_num [exGrid, exTransform])⟩

/-- C3: mask-only masking (crop false) succeeds on a nonempty geometry
collection in the grid's CRS and returns a grid with identical shape,
transform and metadata; every cell intersecting some input geometry keeps
its value and every other cell becomes the no-data sentinel. -/
theorem mask_only_frame (g : Grid) (geoms : List Geometry) (at_ : Bool)
    (hcrs : ∀ ge ∈ geoms, ge.crs = g.crs) (hne : geoms ≠ []) :
    ∃ g2, mask g geoms false at_ = .ok g2 ∧
      g2.rows = g.rows ∧ g2.cols = g.cols ∧
      g2.transform = g.transform ∧ g2.crs = g.crs ∧ g2.nodata = g.nodata ∧
      ∀ r c, r < g.rows → c < g.cols →
        g2.get r c =
          if ((geoms.map Geometry.shape).any
              fun sh => cellTouched g.transform r c sh at_) = true
          then g.get r c else g.nodata := by
  have h1 : (geoms.any fun ge => ge.crs != g.crs) = false := by
    rw [List.any_eq_false]
    intro ge hmem
    simp [bne, hcrs ge hmem]
  have h2 : geoms.isEmpty = false := by
    simp [List.isEmpty_iff]
    exact hne
  refine ⟨maskOnly g (geoms.map Geometry.shape) at_, ?_, rfl, rfl, rfl, rfl,
    rfl, ?_⟩
  · rw [mask]
    simp [h1, h2]
  · intro r c hrcond hccond
    rw [maskOnly, Grid.ofFun_get _ _ _ _ _ _ _ _ hrcond hccond, maskRule]

/-- C3 witness: the theorem applied to the concrete example grid and a
single point geometry in the grid's CRS. -/
theorem mask_only_frame_witness :
    ((∀ ge ∈ [exGeom], ge.crs = exGrid.crs) ∧ [exGeom] ≠ []) ∧
    (∃ g2, mask exGrid [exGeom] false false = .ok g2 ∧
      g2.rows = exGrid.rows ∧ g2.cols = exGrid.cols ∧
      g2.transform = exGrid.transform ∧ g2.crs = exGrid.crs ∧
      g2.nodata = exGrid.nodata ∧
      ∀ r c, r < exGrid.rows → c < exGrid.cols →
        g2.get r c =
          if (([exGeom].map Geometry.shape).any
              fun sh => cellTouched exGrid.transform r c sh false) = true
          then exGrid.get r c else exGrid.nodata) :=
  ⟨⟨by decide, by decide⟩,
    mask_only_frame exGrid [exGeom] false (by decide) (by decide)⟩

/-- C4: for every grid, polygon and inclusion policy the zonal statistics
are computed over the valid (non-no-data) overlapping cells only, count is
the number of valid overlapping cells, the nodata statistic is the number
of excluded no-data overlapping cells, and count plus nodata equals the
total number of grid cells overlapping the polygon under that policy. -/
theorem zonal_stats_valid_counts (g : Grid) (sh : GShape) (at_ : Bool) :
    (zonalStats g sh at_).count + (zonalStats g sh at_).nodataCount
        = (zoneCells g sh at_).length ∧
    (zonalStats g sh at_).count = (zoneValid g sh at_).length ∧
    (zonalStats g sh at_).nodataCount
        = ((zoneValues g sh at_).filter fun v => v == g.nodata).length ∧
    (zonalStats g sh at_).minVal = (zoneValid g sh at_).min? ∧
    (zonalStats g sh at_).maxVal = (zoneValid g sh at_).max? ∧
    (zonalStats g sh at_).meanVal = listMean (zoneValid g sh at_) ∧
    (zonalStats g sh at_).medianVal = listMedian (zoneValid g sh at_) ∧
    (zonalStats g sh at_).majorityVal = listMajority (zoneValid g sh at_) := by
  refine ⟨?_, rfl, rfl, rfl, rfl, rfl, rfl, rfl⟩
  have hc : (zonalStats g sh at_).count = (zoneValid g sh at_).length := rfl
  have hn : (zonalStats g sh at_).nodataCount
      = ((zoneValues g sh at_).filter fun v => v == g.nodata).length := rfl
  rw [hc, hn]
  have h1 : zoneValid g sh at_
      = (zoneValues g sh at_).filter fun v => !(v == g.nodata) := by
    simp [zoneValid, bne]
  rw [h1]
  have h2 := length_filter_not_add (fun v => v == g.nodata)
    (zoneValues g sh at_)
  have h3 : (zoneValues g sh at_).length = (zoneCells g sh at_).length := by
    simp [zoneValues]
  omega

/-- C5: rasterizing a single point geometry with value v onto an empty
template yields a grid whose only non-fill cell is the cell containing the
point's coordinate, and that cell holds v; every other cell holds the
fill value. -/
theorem rasterize_single_point (rows cols : Nat) (t : Affine) (crs : Nat)
    (nd fill v : ℤ) (x y : ℚ) (r0 c0 : Nat) (at_ : Bool)
    (hr : t.rowOf y = (r0 : ℤ)) (hc : t.colOf x = (c0 : ℤ))
    (hr0 : r0 < rows) (hc0 : c0 < cols) (hv : v ≠ fill) :
    (rasterize [(.point x y, v)] rows cols t crs nd fill at_
        .replaceLast).get r0 c0 = v ∧
    (∀ r c, r < rows → c < cols → (r, c) ≠ (r0, c0) →
      (rasterize [(.point x y, v)] rows cols t crs nd fill at_
          .replaceLast).get r c = fill) ∧
    ((cellsList rows cols).filter fun p =>
        !((rasterize [(.point x y, v)] rows cols t crs nd fill at_
            .replaceLast).getP p == fill)) = [(r0, c0)] := by
  have hat : (rasterize [(.point x y, v)] rows cols t crs nd fill at_
      .replaceLast).get r0 c0 = v := by
    rw [rasterize, Grid.ofFun_get _ _ _ _ _ _ _ _ hr0 hc0]
    simp [rasterizeCell, cellTouched, hr, hc, burnCell]
  have hoff : ∀ r c, r < rows → c < cols → (r, c) ≠ (r0, c0) →
      (rasterize [(.point x y, v)] rows cols t crs nd fill at_
          .replaceLast).get r c = fill := by
    intro r c hrr hcc hne
    rw [rasterize, Grid.ofFun_get _ _ _ _ _ _ _ _ hrr hcc]
    have hne2 : r ≠ r0 ∨ c ≠ c0 := by
      by_contra hcon
      push_neg at hcon
      exact hne (by simp [Prod.ext_iff, hcon.1, hcon.2])
    have hfalse : cellTouched t r c (.point x y) at_ = false := by
      simp only [cellTouched, hr, hc]
      rcases hne2 with h | h <;> simp [h, Ne.symm h]
    simp [rasterizeCell, hfalse]
  refine ⟨hat, hoff, ?_⟩
  apply filter_eq_singleton_of_nodup _ _ _ (cellsList_nodup rows cols)
    ((mem_cellsList rows cols _).2 ⟨hr0, hc0⟩)
  intro p hp
  obtain ⟨hp1, hp2⟩ := (mem_cellsList rows cols p).1 hp
  constructor
  · intro hval
    by_contra hne
    have hsplit : p.1 ≠ r0 ∨ p.2 ≠ c0 := by
      by_contra hcon
      push_neg at hcon
      exact hne (Prod.ext hcon.1 hcon.2)
    have hfill := hoff p.1 p.2 hp1 hp2 (by
      rintro heq
      rw [Prod.ext_iff] at heq
      simp only at heq
      rcases hsplit with h | h
      · exact h heq.1
      · exact h heq.2)
    rw [Grid.getP] at hval
    simp [hfill] at hval
  · rintro rfl
    rw [Grid.getP]
    simp only at hat ⊢
    simp [hat, hv]

/-- C5 witness: the theorem applied to a concrete point with value 6
burned onto an empty 2-by-2 template with fill 0. -/
theorem rasterize_single_point_witness :
    (exTransform.rowOf 3 = (0 : ℤ) ∧ exTransform.colOf 1 = (0 : ℤ) ∧
      (6 : ℤ) ≠ 0) ∧
    ((rasterize [(.point 1 3, 6)] 2 2 exTransform 1 (-9) 0 false
        .replaceLast).get 0 0 = 6 ∧
      (∀ r c, r < 2 → c < 2 → (r, c) ≠ (0, 0) →
        (rasterize [(.point 1 3, 6)] 2 2 exTransform 1 (-9) 0 false
            .replaceLast).get r c = 0) ∧
      ((cellsList 2 2).filter fun p =>
          !((rasterize [(.point 1 3, 6)] 2 2 exTransform 1 (-9) 0 false
              .replaceLast).getP p == 0)) = [(0, 0)]) :=
  ⟨⟨by norm_num [exTransform, Affine.rowOf, Int.floor_eq_iff],
    by norm_num [exTransform, Affine.colOf, Int.floor_eq_iff],
    by norm_num⟩,
    rasterize_single_point 2 2 exTransform 1 (-9) 0 6 1 3 0 0 false
      (by norm_num [exTransform, Affine.rowOf, Int.floor_eq_iff])
      (by norm_num [exTransform, Affine.colOf, Int.floor_eq_iff])
      (by norm_num) (by norm_num) (by norm_num)⟩

/-- C9: masking fails with the InvalidCRS error exactly when some input
geometry's CRS differs from the grid's CRS, fails with the EmptyGeometry
error exactly when the selector collection is empty, and produces an
output grid exactly in the remaining cases, so a failure never yields a
partial result. -/
theorem mask_error_conditions (g : Grid) (geoms : List Geometry)
    (crop at_ : Bool) :
    (mask g geoms crop at_ = .error .invalidCRS ↔
      ∃ ge ∈ geoms, ge.crs ≠ g.crs) ∧
    (mask g geoms crop at_ = .error .emptyGeometry ↔ geoms = []) ∧
    ((∃ g2, mask g geoms crop at_ = .ok g2) ↔
      (geoms ≠ [] ∧ ∀ ge ∈ geoms, ge.crs = g.crs)) := by
  by_cases h1 : geoms.any fun ge => ge.crs != g.crs
  · have h1p : ∃ ge ∈ geoms, ge.crs ≠ g.crs := by
      simpa [List.any_eq_true, bne_iff_ne] using h1
    have hne : geoms ≠ [] := by rintro rfl; simp at h1
    have hmask : mask g geoms crop at_ = .error .invalidCRS := by
      rw [mask]; simp [h1]
    rw [hmask]
    refine ⟨iff_of_true rfl h1p, iff_of_false (by simp) hne, ?_⟩
    refine iff_of_false (by rintro ⟨g2, hg2⟩; simp at hg2) ?_
    rintro ⟨-, hall⟩
    obtain ⟨ge, hmem, hne2⟩ := h1p
    exact hne2 (hall ge hmem)
  · have h1p : ∀ ge ∈ geoms, ge.crs = g.crs := by
      intro ge hmem
      by_contra hne2
      exact h1 (List.any_eq_true.mpr ⟨ge, hmem, bne_iff_ne.mpr hne2⟩)
    have hnoex : ¬ ∃ ge ∈ geoms, ge.crs ≠ g.crs := by
      rintro ⟨ge, hmem, hne2⟩
      exact hne2 (h1p ge hmem)
    by_cases h2 : geoms.isEmpty
    · have h2p : geoms = [] := List.isEmpty_iff.mp h2
      have hmask : mask g geoms crop at_ = .error .emptyGeometry := by
        rw [mask]; simp [h1, h2]
      rw [hmask]
      refine ⟨iff_of_false (by simp) hnoex, iff_of_true rfl h2p, ?_⟩
      refine iff_of_false (by rintro ⟨g2, hg2⟩; simp at hg2) ?_
      rintro ⟨hne, -⟩
      exact hne h2p
    · have h2p : geoms ≠ [] := by simpa [List.isEmpty_iff] using h2
      have hmask : ∃ g2, mask g geoms crop at_ = .ok g2 := by
        rw [mask]
        simp only [h1, h2, Bool.false_eq_true, if_false]
        by_cases hcrop : crop <;> simp [hcrop]
      obtain ⟨g2, hg2⟩ := hmask
      rw [hg2]
      exact ⟨iff_of_false (by simp) hnoex, iff_of_false (by simp) h2p,
        iff_of_true ⟨g2, rfl⟩ ⟨h2p, h1p⟩⟩

theorem rowOf_window (t : Affine) (w : Window) (hy : t.ysize ≠ 0) (y : ℚ) :
    (windowTransform t w).rowOf y = t.rowOf y - w.rowOff := by
  rw [windowTransform, Affine.rowOf, Affine.rowOf]
  simp only
  have h : (t.north - (w.rowOff : ℚ) * t.ysize - y) / t.ysize
      = (t.north - y) / t.ysize - (w.rowOff : ℚ) := by
    field_simp
    ring
  rw [h, Int.floor_sub_nat]

theorem colOf_window (t : Affine) (w : Window) (hx : t.xsize ≠ 0) (x : ℚ) :
    (windowTransform t w).colOf x = t.colOf x - w.colOff := by
  rw [windowTransform, Affine.colOf, Affine.colOf]
  simp only
  have h : (x - (t.west + (w.colOff : ℚ) * t.xsize)) / t.xsize
      = (x - t.west) / t.xsize - (w.colOff : ℚ) := by
    field_simp
    ring
  rw [h, Int.floor_sub_nat]

theorem cellCenterX_window (t : Affine) (w : Window) (c : Nat) :
    (windowTransform t w).cellCenterX c = t.cellCenterX (c + w.colOff) := by
  rw [windowTransform, Affine.cellCenterX, Affine.cellCenterX]
  simp only
  push_cast
  ring

theorem cellCenterY_window (t : Affine) (w : Window) (r : Nat) :
    (windowTransform t w).cellCenterY r = t.cellCenterY (r + w.rowOff) := by
  rw [windowTransform, Affine.cellCenterY, Affine.cellCenterY]
  simp only
  push_cast
  ring

theorem cellTouched_window (t : Affine) (w : Window) (r c : Nat)
    (sh : GShape) (at_ : Bool) (hx : t.xsize ≠ 0) (hy : t.ysize ≠ 0) :
    cellTouched (windowTransform t w) r c sh at_
      = cellTouched t (r + w.rowOff) (c + w.colOff) sh at_ := by
  cases sh with
  | point x y =>
    simp only [cellTouched, rowOf_window t w hy, colOf_window t w hx]
    rw [Bool.eq_iff_iff]
    simp only [Bool.and_eq_true, beq_iff_eq]
    push_cast
    omega
  | rect a b c2 d =>
    cases at_ with
    | false =>
      simp [cellTouched, cellCenterX_window, cellCenterY_window]
    | true =>
      simp only [cellTouched, windowTransform, if_true]
      rw [Bool.eq_iff_iff]
      simp only [Bool.and_eq_true, decide_eq_true_eq]
      push_cast
      constructor <;> intro h <;>
        exact ⟨⟨⟨by linarith [h.1.1.1], by linarith [h.1.1.2]⟩,
          by linarith [h.1.2]⟩, by linarith [h.2]⟩

theorem cropWindow_bounds (g : Grid) (shapes : List GShape) (r c : Nat)
    (hr : r < (cropWindow g shapes).rows)
    (hc : c < (cropWindow g shapes).cols) :
    r + (cropWindow g shapes).rowOff < g.rows ∧
    c + (cropWindow g shapes).colOff < g.cols := by
  cases hext : shapesExtent shapes with
  | none =>
    have hw : cropWindow g shapes = ⟨0, 0, 0, 0⟩ := by
      rw [cropWindow, hext]
    rw [hw] at hr
    simp at hr
  | some e =>
    obtain ⟨xmin, ymin, xmax, ymax⟩ := e
    have hw : cropWindow g shapes =
        ⟨(max (g.transform.rowOf ymax) 0).toNat,
         (max (g.transform.colOf xmin) 0).toNat,
         (min (g.transform.rowOf ymin) ((g.rows : ℤ) - 1) + 1
            - max (g.transform.rowOf ymax) 0).toNat,
         (min (g.transform.colOf xmax) ((g.cols : ℤ) - 1) + 1
            - max (g.transform.colOf xmin) 0).toNat⟩ := by
      rw [cropWindow, hext]
    rw [hw] at hr hc ⊢
    simp only at hr hc ⊢
    omega

theorem maskCrop_def (g : Grid) (shapes : List GShape) (at_ : Bool) :
    maskCrop g shapes at_ =
      Grid.ofFun (cropWindow g shapes).rows (cropWindow g shapes).cols
        (windowTransform g.transform (cropWindow g shapes)) g.crs g.nodata
        (fun r c =>
          if shapes.any (fun sh => cellTouched
              (windowTransform g.transform (cropWindow g shapes)) r c sh at_)
          then g.get (r + (cropWindow g shapes).rowOff)
            (c + (cropWindow g shapes).colOff)
          else g.nodata) := rfl

/-- C8: mask-only and mask+crop agree cell for cell within the cropped
window: the mask+crop output has the shape and transform of the minimal
bounding window covering the union of the geometry extents, and each of
its cells equals the mask-only output cell at the window-shifted index. -/
theorem mask_crop_window_agree (g : Grid) (geoms : List Geometry)
    (at_ : Bool) (hcrs : ∀ ge ∈ geoms, ge.crs = g.crs) (hne : geoms ≠ [])
    (hx : 0 < g.transform.xsize) (hy : 0 < g.transform.ysize) :
    ∃ gm gc, mask g geoms false at_ = .ok gm ∧
      mask g geoms true at_ = .ok gc ∧
      gc.rows = (cropWindow g (geoms.map Geometry.shape)).rows ∧
      gc.cols = (cropWindow g (geoms.map Geometry.shape)).cols ∧
      gc.transform = windowTransform g.transform
        (cropWindow g (geoms.map Geometry.shape)) ∧
      ∀ r c, r < gc.rows → c < gc.cols →
        gc.get r c =
          gm.get (r + (cropWindow g (geoms.map Geometry.shape)).rowOff)
            (c + (cropWindow g (geoms.map Geometry.shape)).colOff) := by
  have h1 : (geoms.any fun ge => ge.crs != g.crs) = false := by
    rw [List.any_eq_false]
    intro ge hmem
    simp [bne, hcrs ge hmem]
  have h2 : geoms.isEmpty = false := by
    simp [List.isEmpty_iff]
    exact hne
  refine ⟨maskOnly g (geoms.map Geometry.shape) at_,
    maskCrop g (geoms.map Geometry.shape) at_, ?_, ?_, rfl, rfl, rfl, ?_⟩
  · rw [mask]
    simp [h1, h2]
  · rw [mask]
    simp [h1, h2]
  · intro r c hr hc
    have hr2 : r < (cropWindow g (geoms.map Geometry.shape)).rows := hr
    have hc2 : c < (cropWindow g (geoms.map Geometry.shape)).cols := hc
    have hb := cropWindow_bounds g (geoms.map Geometry.shape) r c hr2 hc2
    rw [maskCrop_def,
      Grid.ofFun_get _ _ _ _ _ _ _ _ hr2 hc2,
      maskOnly, Grid.ofFun_get _ _ _ _ _ _ _ _ hb.1 hb.2, maskRule]
    simp only [cellTouched_window g.transform
      (cropWindow g (geoms.map Geometry.shape)) r c _ at_
      (ne_of_gt hx) (ne_of_gt hy)]


/-- C8 witness: the theorem applied to the concrete example grid and a
single point geometry. -/
theorem mask_crop_window_agree_witness :
    ((0 : ℚ) < exGrid.transform.xsize ∧ (0 : ℚ) < exGrid.transform.ysize) ∧
    (∃ gm gc, mask exGrid [exGeom] false false = .ok gm ∧
      mask exGrid [exGeom] true false = .ok gc ∧
      gc.rows = (cropWindow exGrid ([exGeom].map Geometry.shape)).rows ∧
      gc.cols = (cropWindow exGrid ([exGeom].map Geometry.shape)).cols ∧
      gc.transform = windowTransform exGrid.transform
        (cropWindow exGrid ([exGeom].map Geometry.shape)) ∧
      ∀ r c, r < gc.rows → c < gc.cols →
        gc.get r c =
          gm.get
            (r + (cropWindow exGrid ([exGeom].map Geometry.shape)).rowOff)
            (c + (cropWindow exGrid ([exGeom].map Geometry.shape)).colOff)) :=
  ⟨⟨by norm_num [exGrid, exTransform], by norm_num [exGrid, exTransform]⟩,
    mask_crop_window_agree exGrid [exGeom] false (by decide) (by decide)
      (by norm_num [exGrid, exTransform]) (by norm_num [exGrid, exTransform])⟩

/-- C10 counterexample: with bounding box (0, 0, 2, 2) and resolution 1
(an extent that is an exact multiple of the resolution), the template has
2 rows, yet the point (1, 0), which lies inside the bounding box (on its
bottom edge), maps through the inverse transform to row index 2, which is
not a valid row, falsifying the claim that every point inside the
bounding box maps to a cell index with row < rows. -/
theorem template_bbox_cex :
    ((0 : ℚ) ≤ 1 ∧ (1 : ℚ) ≤ 2 ∧ (0 : ℚ) ≤ 0 ∧ (0 : ℚ) ≤ 2) ∧
    templateRows 0 2 1 = 2 ∧
    (templateTransform 0 2 1).rowOf 0 = 2 ∧
    ¬((templateTransform 0 2 1).rowOf 0 < templateRows 0 2 1) := by
  have h1 : templateRows 0 2 1 = 2 := by
    rw [templateRows]
    norm_num
  have h2 : (templateTransform 0 2 1).rowOf 0 = 2 := by
    rw [templateTransform, Affine.rowOf]
    norm_num
  refine ⟨by norm_num, h1, h2, ?_⟩
  rw [h1, h2]
  omega

/-- C10 amended: the template built from a bounding box with ceiling
division always covers the extent (rows times res is at least the y
extent and cols times res at least the x extent), and every point of the
half-open box (excluding the bottom edge y = ymin and right edge
x = xmax, which can map out of bounds when the extent is an exact
multiple of res) maps through the inverse transform to a cell index with
0 <= row < rows and 0 <= col < cols, so burning such a point never takes
the out-of-bounds branch. -/
theorem template_bbox_inbounds (xmin ymin xmax ymax res x y : ℚ)
    (hres : 0 < res) (hx1 : xmin ≤ x) (hx2 : x < xmax)
    (hy1 : ymin < y) (hy2 : y ≤ ymax) :
    (ymax - ymin) ≤ (templateRows ymin ymax res : ℚ) * res ∧
    (xmax - xmin) ≤ (templateCols xmin xmax res : ℚ) * res ∧
    0 ≤ (templateTransform xmin ymax res).rowOf y ∧
    (templateTransform xmin ymax res).rowOf y < templateRows ymin ymax res ∧
    0 ≤ (templateTransform xmin ymax res).colOf x ∧
    (templateTransform xmin ymax res).colOf x < templateCols xmin xmax res := by
  have hrne : res ≠ 0 := ne_of_gt hres
  refine ⟨?_, ?_, ?_, ?_, ?_, ?_⟩
  · rw [templateRows]
    calc ymax - ymin = ((ymax - ymin) / res) * res := by field_simp
    _ ≤ (⌈(ymax - ymin) / res⌉ : ℚ) * res :=
        mul_le_mul_of_nonneg_right (Int.le_ceil _) (le_of_lt hres)
  · rw [templateCols]
    calc xmax - xmin = ((xmax - xmin) / res) * res := by field_simp
    _ ≤ (⌈(xmax - xmin) / res⌉ : ℚ) * res :=
        mul_le_mul_of_nonneg_right (Int.le_ceil _) (le_of_lt hres)
  · rw [templateTransform, Affine.rowOf]
    simp only
    apply Int.le_floor.2
    push_cast
    exact div_nonneg (by linarith) (le_of_lt hres)
  · rw [templateTransform, Affine.rowOf, templateRows]
    simp only
    apply Int.floor_lt.2
    calc (ymax - y) / res < (ymax - ymin) / res := by
          apply div_lt_div_of_pos_right ?_ hres
          linarith
    _ ≤ (⌈(ymax - ymin) / res⌉ : ℚ) := Int.le_ceil _
  · rw [templateTransform, Affine.colOf]
    simp only
    apply Int.le_floor.2
    push_cast
    exact div_nonneg (by linarith) (le_of_lt hres)
  · rw [templateTransform, Affine.colOf, templateCols]
    simp only
    apply Int.floor_lt.2
    calc (x - xmin) / res < (xmax - xmin) / res := by
          apply div_lt_div_of_pos_right ?_ hres
          linarith
    _ ≤ (⌈(xmax - xmin) / res⌉ : ℚ) := Int.le_ceil _


/-- C10 witness: the amended theorem applied to the bounding box
(0, 0, 2, 2) with resolution 1 and the interior point (1/2, 1/2). -/
theorem template_bbox_inbounds_witness :
    ((0 : ℚ) < 1 ∧ (0 : ℚ) ≤ 1/2 ∧ (1/2 : ℚ) < 2 ∧ (0 : ℚ) < 1/2 ∧
      (1/2 : ℚ) ≤ 2) ∧
    (((2 : ℚ) - 0) ≤ (templateRows 0 2 1 : ℚ) * 1 ∧
      ((2 : ℚ) - 0) ≤ (templateCols 0 2 1 : ℚ) * 1 ∧
      0 ≤ (templateTransform 0 2 1).rowOf (1/2) ∧
      (templateTransform 0 2 1).rowOf (1/2) < templateRows 0 2 1 ∧
      0 ≤ (templateTransform 0 2 1).colOf (1/2) ∧
      (templateTransform 0 2 1).colOf (1/2) < templateCols 0 2 1) :=
  ⟨⟨by norm_num, by norm_num, by norm_num, by norm_num, by norm_num⟩,
    template_bbox_inbounds 0 0 2 2 1 (1/2) (1/2) (by norm_num)
      (by norm_num) (by norm_num) (by norm_num) (by norm_num)⟩

theorem reachN_self (g : Grid) (n : Nat) (p : Nat × Nat) :
    reachN g n p p = true := by
  induction n with
  | zero => simp [reachN]
  | succ n ih => simp [reachN, ih]

theorem reachN_succ_of (g : Grid) (n : Nat) (p q : Nat × Nat)
    (h : reachN g n p q = true) : reachN g (n + 1) p q = true := by
  simp [reachN, h]

theorem reachN_mono (g : Grid) (m n : Nat) (hmn : m ≤ n) (p q : Nat × Nat)
    (h : reachN g m p q = true) : reachN g n p q = true := by
  induction n with
  | zero =>
    have hm0 : m = 0 := by omega
    subst hm0
    exact h
  | succ n ih =>
    rcases Nat.lt_or_ge m (n + 1) with hlt | hge
    · exact reachN_succ_of _ _ _ _ (ih (by omega))
    · have hm : m = n + 1 := by omega
      subst hm
      exact h

theorem reachN_zero_iff (g : Grid) (p q : Nat × Nat) :
    reachN g 0 p q = true ↔ p = q := by
  simp [reachN]

theorem reachN_step (g : Grid) (n : Nat) (p mc q : Nat × Nat)
    (hm : mc ∈ cellsList g.rows g.cols)
    (h1 : reachN g n p mc = true) (h2 : adjB g mc q = true) :
    reachN g (n + 1) p q = true := by
  simp only [reachN, Bool.or_eq_true, List.any_eq_true]
  right
  exact ⟨mc, hm, by simp [h1, h2]⟩

theorem reachN_trans (g : Grid) (m n : Nat) (p q s : Nat × Nat)
    (h1 : reachN g m p q = true) (h2 : reachN g n q s = true) :
    reachN g (m + n) p s = true := by
  induction n generalizing s with
  | zero =>
    have hqs : q = s := (reachN_zero_iff g q s).1 h2
    subst hqs
    simpa using h1
  | succ n ih =>
    simp only [reachN, Bool.or_eq_true, List.any_eq_true] at h2
    rcases h2 with h2 | ⟨mc, hmc, hh⟩
    · exact reachN_mono g (m + n) (m + n + 1) (by omega) _ _ (ih s h2)
    · rw [Bool.and_eq_true] at hh
      exact reachN_step g (m + n) p mc s hmc (ih mc hh.1) hh.2

theorem adjB_of (g : Grid) (p q : Nat × Nat)
    (hp : p.1 < g.rows ∧ p.2 < g.cols) (hq : q.1 < g.rows ∧ q.2 < g.cols)
    (hval : g.getP p = g.getP q)
    (hadj : (p.1 = q.1 ∧ (p.2 + 1 = q.2 ∨ q.2 + 1 = p.2)) ∨
            (p.2 = q.2 ∧ (p.1 + 1 = q.1 ∨ q.1 + 1 = p.1))) :
    adjB g p q = true := by
  simp only [adjB, inBounds, Bool.and_eq_true, Bool.or_eq_true,
    decide_eq_true_eq, beq_iff_eq]
  refine ⟨⟨⟨⟨hp.1, hp.2⟩, hq.1, hq.2⟩, hval⟩, ?_⟩
  tauto

theorem reach_row (g : Grid) (v : ℤ)
    (hv : ∀ p ∈ cellsList g.rows g.cols, g.getP p = v)
    (r : Nat) (hr : r < g.rows) :
    ∀ d c, c + d < g.cols →
      reachN g d (r, c) (r, c + d) = true ∧
      reachN g d (r, c + d) (r, c) = true := by
  intro d
  induction d with
  | zero =>
    intro c h
    exact ⟨reachN_self g 0 (r, c), reachN_self g 0 (r, c)⟩
  | succ d ih =>
    intro c h
    have hcd : c + d < g.cols := by omega
    obtain ⟨ih1, ih2⟩ := ih c hcd
    have hmem1 : ((r, c + d) : Nat × Nat) ∈ cellsList g.rows g.cols :=
      (mem_cellsList _ _ _).2 ⟨hr, hcd⟩
    have hmem2 : ((r, c + d + 1) : Nat × Nat) ∈ cellsList g.rows g.cols :=
      (mem_cellsList _ _ _).2 ⟨hr, by omega⟩
    have hval : g.getP (r, c + d) = g.getP (r, c + d + 1) := by
      rw [hv _ hmem1, hv _ hmem2]
    have hadj1 : adjB g (r, c + d) (r, c + d + 1) = true :=
      adjB_of g _ _ ⟨hr, hcd⟩ ⟨hr, by omega⟩ hval (by left; exact ⟨rfl, by omega⟩)
    have hadj2 : adjB g (r, c + d + 1) (r, c + d) = true :=
      adjB_of g _ _ ⟨hr, by omega⟩ ⟨hr, hcd⟩ hval.symm
        (by left; exact ⟨rfl, by omega⟩)
    have he : c + (d + 1) = c + d + 1 := by omega
    constructor
    · rw [he]
      exact reachN_step g d (r, c) (r, c + d) (r, c + d + 1) hmem1 ih1 hadj1
    · rw [he]
      have hstep : reachN g 1 (r, c + d + 1) (r, c + d) = true :=
        reachN_step g 0 (r, c + d + 1) (r, c + d + 1) (r, c + d) hmem2
          (reachN_self g 0 _) hadj2
      have := reachN_trans g 1 d (r, c + d + 1) (r, c + d) (r, c) hstep ih2
      rw [Nat.add_comm 1 d] at this
      exact this

theorem reach_col (g : Grid) (v : ℤ)
    (hv : ∀ p ∈ cellsList g.rows g.cols, g.getP p = v)
    (c : Nat) (hc : c < g.cols) :
    ∀ d r, r + d < g.rows →
      reachN g d (r, c) (r + d, c) = true ∧
      reachN g d (r + d, c) (r, c) = true := by
  intro d
  induction d with
  | zero =>
    intro r h
    exact ⟨reachN_self g 0 (r, c), reachN_self g 0 (r, c)⟩
  | succ d ih =>
    intro r h
    have hrd : r + d < g.rows := by omega
    obtain ⟨ih1, ih2⟩ := ih r hrd
    have hmem1 : ((r + d, c) : Nat × Nat) ∈ cellsList g.rows g.cols :=
      (mem_cellsList _ _ _).2 ⟨hrd, hc⟩
    have hmem2 : ((r + d + 1, c) : Nat × Nat) ∈ cellsList g.rows g.cols :=
      (mem_cellsList _ _ _).2 ⟨by omega, hc⟩
    have hval : g.getP (r + d, c) = g.getP (r + d + 1, c) := by
      rw [hv _ hmem1, hv _ hmem2]
    have hadj1 : adjB g (r + d, c) (r + d + 1, c) = true :=
      adjB_of g _ _ ⟨hrd, hc⟩ ⟨by omega, hc⟩ hval
        (by right; exact ⟨rfl, by omega⟩)
    have hadj2 : adjB g (r + d + 1, c) (r + d, c) = true :=
      adjB_of g _ _ ⟨by omega, hc⟩ ⟨hrd, hc⟩ hval.symm
        (by right; exact ⟨rfl, by omega⟩)
    have he : r + (d + 1) = r + d + 1 := by omega
    constructor
    · rw [he]
      exact reachN_step g d (r, c) (r + d, c) (r + d + 1, c) hmem1 ih1 hadj1
    · rw [he]
      have hstep : reachN g 1 (r + d + 1, c) (r + d, c) = true :=
        reachN_step g 0 (r + d + 1, c) (r + d + 1, c) (r + d, c) hmem2
          (reachN_self g 0 _) hadj2
      have := reachN_trans g 1 d (r + d + 1, c) (r + d, c) (r, c) hstep ih2
      rw [Nat.add_comm 1 d] at this
      exact this

theorem reach_uniform (g : Grid) (v : ℤ)
    (hv : ∀ p ∈ cellsList g.rows g.cols, g.getP p = v)
    (p q : Nat × Nat) (hp : p ∈ cellsList g.rows g.cols)
    (hq : q ∈ cellsList g.rows g.cols) : reach g p q = true := by
  obtain ⟨hp1, hp2⟩ := (mem_cellsList _ _ _).1 hp
  obtain ⟨hq1, hq2⟩ := (mem_cellsList _ _ _).1 hq
  obtain ⟨p1, p2⟩ := p
  obtain ⟨q1, q2⟩ := q
  simp only at hp1 hp2 hq1 hq2
  have hrow : ∃ d1, d1 < g.cols ∧ reachN g d1 (p1, p2) (p1, q2) = true := by
    rcases Nat.le_total p2 q2 with hle | hle
    · obtain ⟨h1, -⟩ := reach_row g v hv p1 hp1 (q2 - p2) p2 (by omega)
      refine ⟨q2 - p2, by omega, ?_⟩
      have he : p2 + (q2 - p2) = q2 := by omega
      rw [he] at h1
      exact h1
    · obtain ⟨-, h2⟩ := reach_row g v hv p1 hp1 (p2 - q2) q2 (by omega)
      refine ⟨p2 - q2, by omega, ?_⟩
      have he : q2 + (p2 - q2) = p2 := by omega
      rw [he] at h2
      exact h2
  have hcol : ∃ d2, d2 < g.rows ∧ reachN g d2 (p1, q2) (q1, q2) = true := by
    rcases Nat.le_total p1 q1 with hle | hle
    · obtain ⟨h1, -⟩ := reach_col g v hv q2 hq2 (q1 - p1) p1 (by omega)
      refine ⟨q1 - p1, by omega, ?_⟩
      have he : p1 + (q1 - p1) = q1 := by omega
      rw [he] at h1
      exact h1
    · obtain ⟨-, h2⟩ := reach_col g v hv q2 hq2 (p1 - q1) q1 (by omega)
      refine ⟨p1 - q1, by omega, ?_⟩
      have he : q1 + (p1 - q1) = p1 := by omega
      rw [he] at h2
      exact h2
  obtain ⟨d1, hd1, hr1⟩ := hrow
  obtain ⟨d2, hd2, hr2⟩ := hcol
  have htr := reachN_trans g d1 d2 (p1, p2) (p1, q2) (q1, q2) hr1 hr2
  apply reachN_mono g (d1 + d2) (g.rows * g.cols) ?_ _ _ htr
  have hfact : (g.rows - 1 + 1) * (g.cols - 1 + 1)
      = (g.rows - 1) * (g.cols - 1) + (g.rows - 1) + (g.cols - 1) + 1 := by
    ring
  have he1 : g.rows - 1 + 1 = g.rows := by omega
  have he2 : g.cols - 1 + 1 = g.cols := by omega
  rw [he1, he2] at hfact
  omega

theorem filterMap_eq_singleton_of {α β : Type} (l : List α) (f : α → Option β)
    (a : α) (b : β) (hnd : l.Nodup) (ha : a ∈ l) (hfa : f a = some b)
    (hother : ∀ x ∈ l, x ≠ a → f x = none) : l.filterMap f = [b] := by
  induction l with
  | nil => cases ha
  | cons c rest ih =>
    rw [List.nodup_cons] at hnd
    rcases List.mem_cons.1 ha with rfl | hmem
    · simp only [List.filterMap_cons, hfa]
      have hrest : rest.filterMap f = [] := by
        rw [List.filterMap_eq_nil_iff]
        intro x hx
        refine hother x (List.mem_cons_of_mem _ hx) ?_
        rintro rfl
        exact hnd.1 hx
      rw [hrest]
    · have hca : c ≠ a := by
        rintro rfl
        exact hnd.1 hmem
      simp only [List.filterMap_cons,
        hother c (List.mem_cons_self _ _) hca]
      exact ih hnd.2 hmem fun x hx hxa =>
        hother x (List.mem_cons_of_mem _ hx) hxa

theorem cellsList_head (rows cols : Nat) (h : 0 < rows * cols) :
    (cellsList rows cols).head? = some (0, 0) := by
  obtain ⟨k, hk⟩ : ∃ k, rows * cols = k + 1 := ⟨rows * cols - 1, by omega⟩
  rw [cellsList, hk, List.range_succ_eq_map]
  simp

theorem component_uniform (g : Grid) (v : ℤ)
    (hv : ∀ p ∈ cellsList g.rows g.cols, g.getP p = v)
    (p : Nat × Nat) (hp : p ∈ cellsList g.rows g.cols) :
    component g p = cellsList g.rows g.cols :=
  List.filter_eq_self.2 fun q hq => reach_uniform g v hv p q hp hq

/-- C6: vectorization yields a finite sequence of (polygon, value) pairs
whose length is bounded by the grid cell count, and vectorizing a grid in
which every cell holds the same value v yields exactly one polygon,
covering all cells of the grid, with value v. -/
theorem vectorize_bounded_and_uniform (g : Grid) (v : ℤ)
    (hrows : 0 < g.rows) (hcols : 0 < g.cols)
    (hv : ∀ p ∈ cellsList g.rows g.cols, g.getP p = v) :
    (∀ g2 : Grid, (vectorize g2).length ≤ g2.rows * g2.cols) ∧
    vectorize g = [(cellsList g.rows g.cols, v)] := by
  constructor
  · intro g2
    rw [vectorize]
    calc ((cellsList g2.rows g2.cols).filterMap _).length
        ≤ (cellsList g2.rows g2.cols).length := List.length_filterMap_le _ _
    _ = g2.rows * g2.cols := cellsList_length _ _
  · have hpos : 0 < g.rows * g.cols := Nat.mul_pos hrows hcols
    have hhead := cellsList_head g.rows g.cols hpos
    have hzero : ((0, 0) : Nat × Nat) ∈ cellsList g.rows g.cols :=
      (mem_cellsList _ _ _).2 ⟨hrows, hcols⟩
    rw [vectorize]
    apply filterMap_eq_singleton_of _ _ (0, 0) _ (cellsList_nodup _ _) hzero
    · rw [component_uniform g v hv (0, 0) hzero, hhead, if_pos rfl,
        hv (0, 0) hzero]
    · intro x hx hxne
      rw [component_uniform g v hv x hx, hhead, if_neg]
      intro hcon
      exact hxne (by injection hcon with hcon2; exact hcon2.symm)

theorem idGrid_rows (g : Grid) : (idGrid g).rows = g.rows := rfl

theorem idGrid_cols (g : Grid) : (idGrid g).cols = g.cols := rfl

theorem idGrid_getP (g : Grid) (p : Nat × Nat)
    (hp : p.1 < g.rows) (hq : p.2 < g.cols) :
    (idGrid g).getP p = ((p.1 * g.cols + p.2 : Nat) : ℤ) := by
  rw [Grid.getP, idGrid]
  exact Grid.ofFun_get _ _ _ _ _ _ _ _ hp hq

theorem idGrid_adj_false (g : Grid) (p q : Nat × Nat) :
    adjB (idGrid g) p q = false := by
  rcases Bool.eq_false_or_eq_true (adjB (idGrid g) p q) with h | h
  swap
  · exact h
  exfalso
  simp only [adjB, inBounds, Bool.and_eq_true, Bool.or_eq_true,
    decide_eq_true_eq, beq_iff_eq, idGrid_rows, idGrid_cols] at h
  obtain ⟨⟨⟨⟨hp1, hp2⟩, hq1, hq2⟩, hval⟩, hadj⟩ := h
  rw [idGrid_getP g p hp1 hp2, idGrid_getP g q hq1 hq2] at hval
  have hval2 : p.1 * g.cols + p.2 = q.1 * g.cols + q.2 := by
    exact_mod_cast hval
  rcases hadj with ⟨he, hd⟩ | ⟨he, hd⟩
  · rw [he] at hval2
    rcases hd with hd | hd <;> omega
  · have hcols : 0 < g.cols := by omega
    have h1 : p.1 * g.cols ≤ p.1 * g.cols + p.2 := by omega
    rcases hd with hd | hd
    · rw [← hd] at hval2
      have : (p.1 + 1) * g.cols = p.1 * g.cols + g.cols := by ring
      omega
    · rw [← hd] at hval2
      have : (q.1 + 1) * g.cols = q.1 * g.cols + g.cols := by ring
      omega

theorem reachN_no_adj (g : Grid) (hadj : ∀ a b, adjB g a b = false)
    (n : Nat) (p q : Nat × Nat) : reachN g n p q = (p == q) := by
  induction n with
  | zero => rfl
  | succ n ih =>
    rw [reachN, ih]
    have hany : ((cellsList g.rows g.cols).any
        fun m => reachN g n p m && adjB g m q) = false := by
      rw [List.any_eq_false]
      intro m hm
      simp [hadj m q]
    rw [hany, Bool.or_false]

theorem component_distinct (g : Grid) (hadj : ∀ a b, adjB g a b = false)
    (p : Nat × Nat) (hp : p ∈ cellsList g.rows g.cols) :
    component g p = [p] := by
  rw [component]
  have hcong : ∀ q ∈ cellsList g.rows g.cols,
      reach g p q = (q == p) := by
    intro q hq
    rw [reach, reachN_no_adj g hadj]
    rw [Bool.eq_iff_iff, beq_iff_eq, beq_iff_eq]
    exact eq_comm
  rw [List.filter_congr hcong]
  exact filter_eq_singleton_of_nodup _ _ _ (cellsList_nodup _ _) hp
    fun x hx => by rw [beq_iff_eq]

theorem filterMap_eq_map_of {α β : Type} (l : List α) (f : α → Option β)
    (m : α → β) (h : ∀ x ∈ l, f x = some (m x)) :
    l.filterMap f = l.map m := by
  induction l with
  | nil => rfl
  | cons a rest ih =>
    simp only [List.filterMap_cons, h a (List.mem_cons_self _ _),
      List.map_cons]
    rw [ih fun x hx => h x (List.mem_cons_of_mem _ hx)]

theorem vectorize_distinct (g : Grid)
    (hadj : ∀ a b, adjB g a b = false) :
    vectorize g = (cellsList g.rows g.cols).map
      fun p => ([p], g.getP p) := by
  rw [vectorize]
  apply filterMap_eq_map_of
  intro p hp
  rw [component_distinct g hadj p hp]
  simp

theorem regionCentroid_single (p : Nat × Nat) (t : Affine) :
    regionCentroid [p] t = (t.cellCenterX p.2, t.cellCenterY p.1) := by
  simp [regionCentroid]

theorem samplePoint_center (g : Grid) (r c : Nat)
    (hx : 0 < g.transform.xsize) (hy : 0 < g.transform.ysize)
    (hr : r < g.rows) (hc : c < g.cols) :
    samplePoint g (g.transform.cellCenterX c) (g.transform.cellCenterY r)
      = g.get r c := by
  have hrow : g.transform.rowOf (g.transform.cellCenterY r) = (r : ℤ) := by
    rw [Affine.rowOf, Affine.cellCenterY]
    have he : g.transform.north
        - (g.transform.north - ((r : ℚ) + 1/2) * g.transform.ysize)
        = ((r : ℚ) + 1/2) * g.transform.ysize := by ring
    rw [he, mul_div_cancel_right₀ _ (ne_of_gt hy)]
    rw [Int.floor_eq_iff]
    constructor <;> push_cast <;> norm_num
  have hcol : g.transform.colOf (g.transform.cellCenterX c) = (c : ℤ) := by
    rw [Affine.colOf, Affine.cellCenterX]
    have he : g.transform.west + ((c : ℚ) + 1/2) * g.transform.xsize
        - g.transform.west = ((c : ℚ) + 1/2) * g.transform.xsize := by ring
    rw [he, mul_div_cancel_right₀ _ (ne_of_gt hx)]
    rw [Int.floor_eq_iff]
    constructor <;> push_cast <;> norm_num
  rw [samplePoint, hrow, hcol, if_pos]
  · simp
  · refine ⟨by omega, by exact_mod_cast Nat.cast_lt.2 hr, by omega,
      by exact_mod_cast Nat.cast_lt.2 hc⟩

theorem map_getD_range (l : List ℤ) (d : ℤ) :
    (List.range l.length).map (fun i => l.getD i d) = l := by
  induction l with
  | nil => rfl
  | cons a t ih =>
    rw [List.length_cons, List.range_succ_eq_map, List.map_cons,
      List.map_map]
    have he : ((fun i => (a :: t).getD i d) ∘ Nat.succ)
        = fun i => t.getD i d := rfl
    rw [he, ih]
    rfl

theorem map_get_cellsList (g : Grid)
    (hlen : g.data.length = g.rows * g.cols) :
    (cellsList g.rows g.cols).map (fun p => g.get p.1 p.2) = g.data := by
  rw [cellsList, List.map_map]
  have hfun : ∀ i ∈ List.range (g.rows * g.cols),
      ((fun p : Nat × Nat => g.get p.1 p.2)
        ∘ fun i => (i / g.cols, i % g.cols)) i = g.data.getD i g.nodata := by
    intro i hi
    show g.get (i / g.cols) (i % g.cols) = g.data.getD i g.nodata
    rw [Grid.get]
    congr 1
    rw [mul_comm]
    exact Nat.div_add_mod i g.cols
  rw [List.map_congr_left hfun, ← hlen, map_getD_range]

/-- C7: the round trip rasterize a unique per-cell identifier grid,
vectorize it, take each polygon's centroid and point-extract from the
original grid recovers the original per-cell values exactly once: the
result is exactly the original grid's row-major data, one value per
cell. -/
theorem round_trip_recovers (g : Grid)
    (hx : 0 < g.transform.xsize) (hy : 0 < g.transform.ysize)
    (hlen : g.data.length = g.rows * g.cols) :
    roundTrip g = g.data ∧ (roundTrip g).length = g.rows * g.cols := by
  have hmain : roundTrip g = g.data := by
    rw [roundTrip, vectorize_distinct (idGrid g) (idGrid_adj_false g),
      pointQuery, List.map_map, List.map_map]
    refine Eq.trans (List.map_congr_left ?_) (map_get_cellsList g hlen)
    intro p hp
    obtain ⟨h1, h2⟩ := (mem_cellsList _ _ _).1 hp
    simp only [Function.comp, regionCentroid_single]
    exact samplePoint_center g p.1 p.2 hx hy h1 h2
  exact ⟨hmain, by rw [hmain, hlen]⟩


/-- C6 witness: the theorem applied to the concrete uniform 2-by-2 grid
with value 5. -/
theorem vectorize_bounded_and_uniform_witness :
    (0 < exUniform.rows ∧ 0 < exUniform.cols ∧
      ∀ p ∈ cellsList exUniform.rows exUniform.cols,
        exUniform.getP p = 5) ∧
    ((∀ g2 : Grid, (vectorize g2).length ≤ g2.rows * g2.cols) ∧
      vectorize exUniform = [(cellsList exUniform.rows exUniform.cols, 5)]) :=
  ⟨⟨by decide, by decide, by decide⟩,
    vectorize_bounded_and_uniform exUniform 5 (by decide) (by decide)
      (by decide)⟩

/-- C7 witness: the theorem applied to the concrete example grid. -/
theorem round_trip_recovers_witness :
    ((0 : ℚ) < exGrid.transform.xsize ∧ (0 : ℚ) < exGrid.transform.ysize ∧
      exGrid.data.length = exGrid.rows * exGrid.cols) ∧
    (roundTrip exGrid = exGrid.data ∧
      (roundTrip exGrid).length = exGrid.rows * exGrid.cols) :=
  ⟨⟨by norm_num [exGrid, exTransform], by norm_num [exGrid, exTransform],
    by decide⟩,
    round_trip_recovers exGrid (by norm_num [exGrid, exTransform])
      (by norm_num [exGrid, exTransform]) (by decide)⟩

end GeoCompy
